import Mathlib

/-!
Verification of the JSON handling and CRUD handler logic of the
terraform-provider-kibana repository (package kb).

The development shallowly embeds:
  * Go's generic JSON decoding (json.Unmarshal into interface, as used by
    rawJsonEqual) as an executable parser into a tree type Jtext, with object
    fields kept in textual order, and a canonicalisation step canon modelling
    the fact that Go decodes objects into maps (key order lost, duplicate keys
    resolved last-wins);
  * json.Marshal applied to a json.RawMessage (as used by flattenActions) as a
    validate-and-reserialize step marshalRawMessage; Go validates and compacts
    the raw bytes, which is value-faithful to parse-then-serialize (only byte
    level details such as preserved key order and number spellings differ,
    and no claim below observes those bytes beyond their parsed value);
  * the CRUD handlers of resource_kibana_connector.go,
    resource_kibana_alert_rule.go and data_source_kibana_connector_types.go as
    explicit state transformers over the Terraform attribute state, with the
    REST client's answer passed in as an explicit argument.

Numbers are modelled as exact decimal mantissa/exponent pairs rather than
IEEE float64; this is faithful for every decimal literal that float64
represents exactly, and no claim exercises float64 rounding or range limits.
-/

namespace KbProvider

mutual

/-- A JSON text parsed into a tree, as Go's encoding/json scanner sees it:
object fields are kept in the order they appear in the text and may contain
duplicate keys; numbers are kept as an exact decimal mantissa and power of
ten exponent. -/
inductive Jtext where
  | null : Jtext
  | boolV (b : Bool) : Jtext
  | num (m : Int) (e : Int) : Jtext
  | str (s : String) : Jtext
  | arr (elems : Jarr) : Jtext
  | obj (fields : Jobj) : Jtext

/-- A list of JSON array elements, in textual order. -/
inductive Jarr where
  | nil : Jarr
  | cons (hd : Jtext) (tl : Jarr) : Jarr

/-- A list of JSON object fields, in textual order, duplicates kept. -/
inductive Jobj where
  | nil : Jobj
  | cons (key : String) (val : Jtext) (tl : Jobj) : Jobj

end

mutual

/-- Structural equality of decoded JSON values, as reflect.DeepEqual
computes it on the interface values json.Unmarshal produces. -/
def jeqV : Jtext → Jtext → Bool
  | .null, .null => true
  | .boolV a, .boolV b => a == b
  | .num m1 e1, .num m2 e2 => m1 == m2 && e1 == e2
  | .str a, .str b => a == b
  | .arr xs, .arr ys => jeqL xs ys
  | .obj xs, .obj ys => jeqF xs ys
  | _, _ => false

/-- Elementwise equality of arrays (order significant). -/
def jeqL : Jarr → Jarr → Bool
  | .nil, .nil => true
  | .cons x xs, .cons y ys => jeqV x y && jeqL xs ys
  | _, _ => false

/-- Fieldwise equality of field lists. -/
def jeqF : Jobj → Jobj → Bool
  | .nil, .nil => true
  | .cons k1 v1 xs, .cons k2 v2 ys => k1 == k2 && jeqV v1 v2 && jeqF xs ys
  | _, _ => false

end

/-- The opening curly brace character (written numerically throughout). -/
def lcurl : Char := Char.ofNat 123

/-- The closing curly brace character. -/
def rcurl : Char := Char.ofNat 125

/-- The opening square bracket character. -/
def lbrk : Char := Char.ofNat 91

/-- The closing square bracket character. -/
def rbrk : Char := Char.ofNat 93

/-- JSON insignificant whitespace: space, tab, newline, carriage return. -/
def isJsonWs (c : Char) : Bool :=
  c = Char.ofNat 32 || c = Char.ofNat 9 || c = Char.ofNat 10 || c = Char.ofNat 13

/-- Drop leading JSON whitespace. -/
def skipWs : List Char → List Char
  | [] => []
  | c :: cs => if isJsonWs c then skipWs cs else c :: cs

/-- Decimal digit test. -/
def isDig (c : Char) : Bool := 48 ≤ c.toNat && c.toNat ≤ 57

/-- Value of a decimal digit character. -/
def digVal (c : Char) : Nat := c.toNat - 48

/-- Consume a run of decimal digits, extending accumulator `a`. -/
def parseDigitsAux (a : Nat) : List Char → Nat × List Char
  | [] => (a, [])
  | c :: cs => if isDig c then parseDigitsAux (a * 10 + digVal c) cs else (a, c :: cs)

/-- Consume a run of decimal digits, extending accumulator `a` and counting
the digits consumed on top of `n`. -/
def parseDigitsCnt (a n : Nat) : List Char → Nat × Nat × List Char
  | [] => (a, n, [])
  | c :: cs => if isDig c then parseDigitsCnt (a * 10 + digVal c) (n + 1) cs else (a, n, c :: cs)

/-- Hexadecimal digit test (both cases accepted, as in Go). -/
def isHex (c : Char) : Bool :=
  (48 ≤ c.toNat && c.toNat ≤ 57) || (97 ≤ c.toNat && c.toNat ≤ 102) ||
    (65 ≤ c.toNat && c.toNat ≤ 70)

/-- Value of a hexadecimal digit character. -/
def hexVal (c : Char) : Nat :=
  if 48 ≤ c.toNat && c.toNat ≤ 57 then c.toNat - 48
  else if 97 ≤ c.toNat && c.toNat ≤ 102 then c.toNat - 87
  else c.toNat - 55

/-- The double quote character. -/
def qu : Char := Char.ofNat 34

/-- The backslash character. -/
def bsl : Char := Char.ofNat 92

/-- Parse the body of a JSON string, the opening quote already consumed,
decoding escapes the way Go's encoding/json does: simple escapes, \u escapes
with surrogate pairs combined and unpaired surrogates replaced by U+FFFD;
raw control characters below 0x20 are rejected. `acc` holds the decoded
characters in reverse. Fuel-indexed (one unit per decoded character); the
callers supply the length of the remaining input, which always suffices. -/
def parseStrAux : Nat → List Char → List Char → Option (String × List Char)
  | 0, _, _ => none
  | fuel + 1, acc, cs =>
    match cs with
    | [] => none
    | c :: cs =>
      if c = qu then some (String.mk acc.reverse, cs)
      else if c = bsl then
        match cs with
        | [] => none
        | e :: cs2 =>
          if e = qu then parseStrAux fuel (qu :: acc) cs2
          else if e = bsl then parseStrAux fuel (bsl :: acc) cs2
          else if e = Char.ofNat 47 then parseStrAux fuel (Char.ofNat 47 :: acc) cs2
          else if e = 'b' then parseStrAux fuel (Char.ofNat 8 :: acc) cs2
          else if e = 'f' then parseStrAux fuel (Char.ofNat 12 :: acc) cs2
          else if e = 'n' then parseStrAux fuel (Char.ofNat 10 :: acc) cs2
          else if e = 'r' then parseStrAux fuel (Char.ofNat 13 :: acc) cs2
          else if e = 't' then parseStrAux fuel (Char.ofNat 9 :: acc) cs2
          else if e = 'u' then
            match cs2 with
            | h1 :: h2 :: h3 :: h4 :: cs3 =>
              if isHex h1 && isHex h2 && isHex h3 && isHex h4 then
                let code := hexVal h1 * 4096 + hexVal h2 * 256 + hexVal h3 * 16 + hexVal h4
                if 55296 ≤ code ∧ code ≤ 56319 then
                  match cs3 with
                  | b1 :: u1 :: g1 :: g2 :: g3 :: g4 :: cs4 =>
                    if b1 = bsl ∧ u1 = 'u' ∧
                        (isHex g1 && isHex g2 && isHex g3 && isHex g4) = true then
                      let lo := hexVal g1 * 4096 + hexVal g2 * 256 + hexVal g3 * 16 + hexVal g4
                      if 56320 ≤ lo ∧ lo ≤ 57343 then
                        parseStrAux fuel
                          (Char.ofNat (65536 + (code - 55296) * 1024 + (lo - 56320)) :: acc) cs4
                      else parseStrAux fuel (Char.ofNat 65533 :: acc) cs3
                    else parseStrAux fuel (Char.ofNat 65533 :: acc) cs3
                  | _ => parseStrAux fuel (Char.ofNat 65533 :: acc) cs3
                else if 56320 ≤ code ∧ code ≤ 57343 then
                  parseStrAux fuel (Char.ofNat 65533 :: acc) cs3
                else parseStrAux fuel (Char.ofNat code :: acc) cs3
              else none
            | _ => none
          else none
      else if c.toNat < 32 then none
      else parseStrAux fuel (c :: acc) cs

/-- Parse the fraction and exponent suffix of a JSON number whose optional
sign (`neg`) and integer part (`iv`) are already consumed, yielding the
decimal mantissa/exponent pair. -/
def parseNumTail (neg : Bool) (iv : Nat) (cs : List Char) : Option ((Int × Int) × List Char) :=
  let fr : Option (Nat × Nat × List Char) :=
    match cs with
    | c :: rest =>
      if c = '.' then
        match rest with
        | d :: rest2 => if isDig d then some (parseDigitsCnt (digVal d) 1 rest2) else none
        | [] => none
      else some (0, 0, cs)
    | [] => some (0, 0, cs)
  match fr with
  | none => none
  | some (fv, fn, cs2) =>
    let ex : Option (Int × List Char) :=
      match cs2 with
      | c :: rest =>
        if c = 'e' ∨ c = 'E' then
          let sr : Bool × List Char :=
            match rest with
            | s :: r2 => if s = '-' then (true, r2) else if s = '+' then (false, r2) else (false, rest)
            | [] => (false, rest)
          match sr.2 with
          | d :: r3 =>
            if isDig d then
              let vr := parseDigitsAux (digVal d) r3
              some (if sr.1 then -(vr.1 : Int) else (vr.1 : Int), vr.2)
            else none
          | [] => none
        else some (0, cs2)
      | [] => some (0, cs2)
    match ex with
    | none => none
    | some (ev, cs3) =>
      let mant : Int := ((iv * 10 ^ fn + fv : Nat) : Int)
      some ((if neg then -mant else mant, ev - (fn : Int)), cs3)

/-- Parse a JSON number (RFC 8259 grammar, as accepted by Go's scanner):
optional minus sign, integer part with no leading zero, optional fraction,
optional exponent. -/
def parseNumber (cs : List Char) : Option ((Int × Int) × List Char) :=
  let sr : Bool × List Char :=
    match cs with
    | c :: rest => if c = '-' then (true, rest) else (false, cs)
    | [] => (false, cs)
  match sr.2 with
  | [] => none
  | c :: rest =>
    if c = '0' then
      match rest with
      | d :: _ => if isDig d then none else parseNumTail sr.1 0 rest
      | [] => parseNumTail sr.1 0 rest
    else if isDig c then
      let vr := parseDigitsAux (digVal c) rest
      parseNumTail sr.1 vr.1 vr.2
    else none

mutual

/-- Parse one JSON value off the front of the input (fuel-indexed to bound
the nesting depth; `parseJson` supplies enough fuel for any input). -/
def parseValue : Nat → List Char → Option (Jtext × List Char)
  | 0, _ => none
  | fuel + 1, cs =>
    match skipWs cs with
    | [] => none
    | c :: rest =>
      if c = lbrk then
        match skipWs rest with
        | c2 :: rest2 =>
          if c2 = rbrk then some (.arr .nil, rest2)
          else
            match parseElems fuel (c2 :: rest2) with
            | some (es, rest3) => some (.arr es, rest3)
            | none => none
        | [] => none
      else if c = lcurl then
        match skipWs rest with
        | c2 :: rest2 =>
          if c2 = rcurl then some (.obj .nil, rest2)
          else
            match parseFields fuel (c2 :: rest2) with
            | some (fs, rest3) => some (.obj fs, rest3)
            | none => none
        | [] => none
      else if c = qu then
        match parseStrAux rest.length [] rest with
        | some (s, rest2) => some (.str s, rest2)
        | none => none
      else if c = 't' then
        match rest with
        | c1 :: c2 :: c3 :: rest2 =>
          if c1 = 'r' ∧ c2 = 'u' ∧ c3 = 'e' then some (.boolV true, rest2) else none
        | _ => none
      else if c = 'f' then
        match rest with
        | c1 :: c2 :: c3 :: c4 :: rest2 =>
          if c1 = 'a' ∧ c2 = 'l' ∧ c3 = 's' ∧ c4 = 'e' then some (.boolV false, rest2) else none
        | _ => none
      else if c = 'n' then
        match rest with
        | c1 :: c2 :: c3 :: rest2 =>
          if c1 = 'u' ∧ c2 = 'l' ∧ c3 = 'l' then some (.null, rest2) else none
        | _ => none
      else
        match parseNumber (c :: rest) with
        | some (me, rest2) => some (.num me.1 me.2, rest2)
        | none => none

/-- Parse the elements of a non-empty JSON array, up to and including the
closing bracket. -/
def parseElems : Nat → List Char → Option (Jarr × List Char)
  | 0, _ => none
  | fuel + 1, cs =>
    match parseValue fuel cs with
    | none => none
    | some (v, rest) =>
      match skipWs rest with
      | c :: rest2 =>
        if c = ',' then
          match parseElems fuel rest2 with
          | some (vs, rest3) => some (.cons v vs, rest3)
          | none => none
        else if c = rbrk then some (.cons v .nil, rest2)
        else none
      | [] => none

/-- Parse the fields of a non-empty JSON object, up to and including the
closing brace. -/
def parseFields : Nat → List Char → Option (Jobj × List Char)
  | 0, _ => none
  | fuel + 1, cs =>
    match skipWs cs with
    | c :: rest =>
      if c = qu then
        match parseStrAux rest.length [] rest with
        | some (k, rest2) =>
          match skipWs rest2 with
          | c2 :: rest3 =>
            if c2 = ':' then
              match parseValue fuel rest3 with
              | some (v, rest4) =>
                match skipWs rest4 with
                | c3 :: rest5 =>
                  if c3 = ',' then
                    match parseFields fuel rest5 with
                    | some (fs, rest6) => some (.cons k v fs, rest6)
                    | none => none
                  else if c3 = rcurl then some (.cons k v .nil, rest5)
                  else none
                | [] => none
              | none => none
            else none
          | [] => none
        | none => none
      else none
    | [] => none

end

/-- Parse a complete JSON text: one value, with only whitespace allowed
after it (Go's json.Unmarshal rejects trailing data). -/
def parseJson (s : String) : Option Jtext :=
  match parseValue (s.length + 1) s.data with
  | some (v, rest) => if skipWs rest = [] then some v else none
  | none => none

/-- Decimal digits of `n`, most significant first, prepended to `acc`;
fuel-indexed so the recursion is structural (any fuel above the digit count
gives the digits; natChars supplies n + 1). -/
def natCharsGo : Nat → Nat → List Char → List Char
  | 0, _, acc => acc
  | fuel + 1, n, acc =>
    if n < 10 then Char.ofNat (48 + n) :: acc
    else natCharsGo fuel (n / 10) (Char.ofNat (48 + n % 10) :: acc)

/-- Decimal digits of `n`, most significant first, no leading zeros. -/
def natChars (n : Nat) : List Char := natCharsGo (n + 1) n []

/-- Decimal representation of an integer. -/
def intChars (i : Int) : List Char :=
  if i < 0 then '-' :: natChars i.natAbs else natChars i.natAbs

/-- Serialization of the number with mantissa `m` and exponent `e`, in the
JSON exponent form `<m>e<e>`. -/
def numChars (m e : Int) : List Char := intChars m ++ 'e' :: intChars e

/-- Hexadecimal digit character for `n < 16` (lower case). -/
def hexDigit (n : Nat) : Char :=
  if n < 10 then Char.ofNat (48 + n) else Char.ofNat (87 + n)

/-- Serialize one character of a JSON string: quote and backslash get a
backslash escape, control characters a \u00XX escape, the rest stand for
themselves. -/
def encChar (c : Char) : List Char :=
  if c = qu then [bsl, qu]
  else if c = bsl then [bsl, bsl]
  else if c.toNat < 32 then [bsl, 'u', '0', '0', hexDigit (c.toNat / 16), hexDigit (c.toNat % 16)]
  else [c]

/-- Serialize a JSON string, quotes included. -/
def encStr (s : String) : List Char := qu :: (s.data.flatMap encChar ++ [qu])

mutual

/-- Serialize a JSON tree compactly (no insignificant whitespace), keeping
object fields in their stored order. -/
def serializeV : Jtext → List Char
  | .null => ['n', 'u', 'l', 'l']
  | .boolV true => ['t', 'r', 'u', 'e']
  | .boolV false => ['f', 'a', 'l', 's', 'e']
  | .num m e => numChars m e
  | .str s => encStr s
  | .arr .nil => [lbrk, rbrk]
  | .arr (.cons v vs) => lbrk :: (serializeV v ++ serializeElms vs)
  | .obj .nil => [lcurl, rcurl]
  | .obj (.cons k v fs) => lcurl :: (encStr k ++ ':' :: (serializeV v ++ serializeFlds fs))

/-- Serialize the remaining elements of an array after the first, each
preceded by a comma, closing bracket included. -/
def serializeElms : Jarr → List Char
  | .nil => [rbrk]
  | .cons v vs => ',' :: (serializeV v ++ serializeElms vs)

/-- Serialize the remaining fields of an object after the first, each
preceded by a comma, closing brace included. -/
def serializeFlds : Jobj → List Char
  | .nil => [rcurl]
  | .cons k v fs => ',' :: (encStr k ++ ':' :: (serializeV v ++ serializeFlds fs))

end

/-- Move factors of ten from the mantissa into the exponent; the fuel is an
upper bound on the number of strippable factors. -/
def normNumAux : Nat → Int → Int → Int × Int
  | 0, m, e => (m, e)
  | f + 1, m, e => if m % 10 = 0 then normNumAux f (m / 10) (e + 1) else (m, e)

/-- Canonical form of a decimal mantissa/exponent pair: zero becomes (0, 0),
otherwise all factors of ten move from the mantissa into the exponent. Distinct
spellings of the same numeric value (1, 1.0, 10e-1) decode to equal float64
values in Go, and have equal canonical pairs here. -/
def normNum (m e : Int) : Int × Int :=
  if m = 0 then (0, 0) else normNumAux m.natAbs m e

/-- Lexicographic comparison of character lists by code point; any strict
total order on keys serves to make the canonical field order independent of
the textual one. -/
def charListLt : List Char → List Char → Bool
  | [], [] => false
  | [], _ :: _ => true
  | _ :: _, [] => false
  | a :: as, b :: bs =>
    if a.toNat < b.toNat then true
    else if b.toNat < a.toNat then false
    else charListLt as bs

/-- Lexicographic order on strings. -/
def strLt (a b : String) : Bool := charListLt a.data b.data

/-- Insert a field into a key-sorted field list, replacing any existing
binding of the same key (Go map assignment). -/
def insField (k : String) (v : Jtext) : Jobj → Jobj
  | .nil => .cons k v .nil
  | .cons k2 v2 rest =>
    if k = k2 then .cons k v rest
    else if strLt k k2 then .cons k v (.cons k2 v2 rest)
    else .cons k2 v2 (insField k v rest)

mutual

/-- Canonicalise a parsed tree into the shape Go's json.Unmarshal delivers
through interface values: objects become maps, so field order is forgotten
(keys sorted) and duplicate keys resolve to the textually last value. -/
def canon : Jtext → Jtext
  | .num m e => .num (normNum m e).1 (normNum m e).2
  | .arr es => .arr (canonL es)
  | .obj fs => .obj (canonFAux .nil fs)
  | t => t

/-- Canonicalise every element of an array. -/
def canonL : Jarr → Jarr
  | .nil => .nil
  | .cons v vs => .cons (canon v) (canonL vs)

/-- Fold the fields in textual order into a sorted field list, later
bindings overwriting earlier ones. -/
def canonFAux (acc : Jobj) : Jobj → Jobj
  | .nil => acc
  | .cons k v fs => canonFAux (insField k (canon v) acc) fs

end

/-- Models Go's json.Unmarshal of a text into a generic interface value:
parse, then forget object field order per the map semantics. -/
def jsonUnmarshal (s : String) : Option Jtext := (parseJson s).map canon

/-- Embeds rawJsonEqual of resource_kibana_alert_rule.go: unmarshal both
values (false on either error) and compare the decoded values with
reflect.DeepEqual. The schema key `k` and the resource data `d` are taken
and ignored, as in the source. -/
def rawJsonEqual {δ : Type} (k oldValue newValue : String) (d : δ) : Bool :=
  match jsonUnmarshal oldValue with
  | none => false
  | some o =>
    match jsonUnmarshal newValue with
    | none => false
    | some n => jeqV o n

/-- Models Go's json.Marshal applied to a json.RawMessage, as flattenActions
does: Go validates the raw bytes and emits them compacted, an error if they
are not valid JSON. Value-faithfully modelled as parse-then-serialize (the
byte-level spelling Go preserves — key order, number formatting — is not
observed by any property below, only the parsed value is). -/
def marshalRawMessage (s : String) : Option String :=
  match parseJson s with
  | some t => some (String.mk (serializeV t))
  | none => none

/-! ## Errors and client call results

The REST client (go-kibana-rest) returns Go error values. Errors that come
out of its API calls are kbapi.APIError values carrying an HTTP status
code; an error of any other dynamic type is possible in principle, and the
delete handlers type-assert without checking, so the embedding keeps both
shapes. -/

/-- A Go error value as seen by the handlers: either a kbapi.APIError with
its status code, or an error of some other dynamic type. -/
inductive GoError where
  | apiError (code : Int) (message : String) : GoError
  | otherError (message : String) : GoError
deriving DecidableEq

/-- Result of a client Get call: a hard error, a nil object with nil error
(how the client reports 404/not-found), or the object. -/
inductive GetResult (α : Type) where
  | err (e : GoError) : GetResult α
  | notFound : GetResult α
  | found (v : α) : GetResult α

/-- Outcome of a delete handler: a normal return with the new state and an
optional surfaced error, or a runtime panic (from the unchecked type
assertion err.(kbapi.APIError)). -/
inductive DeleteOutcome (σ : Type) where
  | normal (st : σ) (diags : Option GoError) : DeleteOutcome σ
  | panicked : DeleteOutcome σ
deriving DecidableEq

/-! ## Alert rule actions: deflate and flatten
(resource_kibana_alert_rule.go, lines 330-359) -/

/-- kbapi.KibanaAlertRuleAction: the nested API action; Params is a
json.RawMessage, i.e. raw JSON text held verbatim. -/
structure KibanaAlertRuleAction where
  Id : String
  Group : String
  Params : String
deriving DecidableEq

/-- One flat Terraform action record, with the three string attributes the
schema declares (id, group, params). -/
structure FlatAction where
  id : String
  group : String
  params : String
deriving DecidableEq

/-- Embeds deflateActions: each flat record's id, group and params strings
are copied verbatim into an API action (params bytes taken as the raw
message unparsed); the error result is always nil. -/
def deflateActions (actionArray : List FlatAction) : List KibanaAlertRuleAction × Option GoError :=
  (actionArray.map fun f => ⟨f.id, f.group, f.params⟩, none)

/-- Embeds flattenActions: id and group are copied, params is re-serialized
through json.Marshal on the raw message; the first marshal failure aborts
with the wrapped error and no list (the Go function returns nil, err). -/
def flattenActions : List KibanaAlertRuleAction → Except GoError (List FlatAction)
  | [] => .ok []
  | a :: rest =>
    match marshalRawMessage a.Params with
    | none => .error (.otherError "Failed to marshal Action")
    | some ps =>
      match flattenActions rest with
      | .ok l => .ok (⟨a.Id, a.Group, ps⟩ :: l)
      | .error e => .error e

/-! ## Connector resource handlers (resource_kibana_connector.go) -/

/-- kbapi.KibanaConnector: the remote connector object as returned by the
client. -/
structure KibanaConnector where
  ID : String
  Name : String
  ConnectorTypeID : String
  IsPreconfigured : Bool
  IsDeprecated : Bool
  IsMissingSecrets : Bool
  ReferencedByCount : Int
  Config : List (String × String)
deriving DecidableEq

/-- The Terraform attribute state of a kibana_connector resource (the
fields its schema declares, plus the resource id). -/
structure ConnectorState where
  id : String
  name : String
  connector_type_id : String
  is_preconfigured : Bool
  is_deprecated : Bool
  is_missing_secrets : Bool
  referenced_by_count : Int
  config : List (String × String)
  secrets : List (String × String)
deriving DecidableEq

/-- Embeds resourceKibanaConnectorRead: a client error is surfaced; a nil
connector (404) clears the id and raises nothing; otherwise every schema
field except secrets is copied from the response. -/
def resourceKibanaConnectorRead (res : GetResult KibanaConnector) (st : ConnectorState) :
    ConnectorState × Option GoError :=
  match res with
  | .err e => (st, some e)
  | .notFound => ({ st with id := "" }, none)
  | .found c =>
    ({ st with
        name := c.Name
        connector_type_id := c.ConnectorTypeID
        is_preconfigured := c.IsPreconfigured
        is_deprecated := c.IsDeprecated
        is_missing_secrets := c.IsMissingSecrets
        referenced_by_count := c.ReferencedByCount
        config := c.Config }, none)

/-- Embeds resourceKibanaConnectorCreate: build the create params from the
current attributes, call the client (its answer passed in as createRes), on
success set the id and write secrets back from the request, then re-read
(the read call's answer passed in as readRes). -/
def resourceKibanaConnectorCreate (createRes : Except GoError KibanaConnector)
    (readRes : GetResult KibanaConnector) (st : ConnectorState) :
    ConnectorState × Option GoError :=
  let secretsParam := st.secrets
  match createRes with
  | .error e => (st, some e)
  | .ok c =>
    resourceKibanaConnectorRead readRes { st with id := c.ID, secrets := secretsParam }

/-- Embeds resourceKibanaConnectorUpdate: same shape as create (the update
params carry name, config and the request secrets; on success the id is
re-set from the response and secrets written back from the request), then a
re-read. -/
def resourceKibanaConnectorUpdate (updateRes : Except GoError KibanaConnector)
    (readRes : GetResult KibanaConnector) (st : ConnectorState) :
    ConnectorState × Option GoError :=
  let secretsParam := st.secrets
  match updateRes with
  | .error e => (st, some e)
  | .ok c =>
    resourceKibanaConnectorRead readRes { st with id := c.ID, secrets := secretsParam }

/-- Embeds resourceKibanaConnectorDelete: nil error clears the id; a non-nil
error is type-asserted to kbapi.APIError unchecked — an APIError with code
404 clears the id and surfaces nothing, any other APIError code is surfaced,
and an error of any other dynamic type panics. -/
def resourceKibanaConnectorDelete (res : Option GoError) (st : ConnectorState) :
    DeleteOutcome ConnectorState :=
  match res with
  | none => .normal { st with id := "" } none
  | some e =>
    match e with
    | .apiError code _ =>
      if code = 404 then .normal { st with id := "" } none
      else .normal st (some e)
    | .otherError _ => .panicked

/-! ## Alert rule resource handlers (resource_kibana_alert_rule.go) -/

/-- kbapi.KibanaAlertRule: the remote alert rule object as returned by the
client; Params is a raw JSON document. -/
structure KibanaAlertRule where
  ID : String
  Name : String
  Tags : List String
  Consumer : String
  Enabled : Bool
  RuleTypeID : String
  ScheduleInterval : String
  Throttle : String
  NotifyWhen : String
  Params : String
  Actions : List KibanaAlertRuleAction
deriving DecidableEq

/-- The Terraform attribute state of a kibana_alert_rule resource. -/
structure AlertRuleState where
  id : String
  name : String
  tags : List String
  consumer : String
  enabled : Bool
  rule_type_id : String
  schedule_interval : String
  throttle : String
  notify_when : String
  params : String
  actions : List FlatAction
deriving DecidableEq

/-- Embeds resourceKibanaAlertRuleRead: a client error is surfaced; a nil
rule (404) clears the id and raises nothing; otherwise the schema fields
are set in source order — the scalar fields, then params re-marshalled from
the response, then the flattened actions; a marshal or flatten failure is
surfaced after the earlier sets have already been applied. -/
def resourceKibanaAlertRuleRead (res : GetResult KibanaAlertRule) (st : AlertRuleState) :
    AlertRuleState × Option GoError :=
  match res with
  | .err e => (st, some e)
  | .notFound => ({ st with id := "" }, none)
  | .found r =>
    let st1 := { st with
      name := r.Name
      tags := r.Tags
      consumer := r.Consumer
      enabled := r.Enabled
      rule_type_id := r.RuleTypeID
      schedule_interval := r.ScheduleInterval
      throttle := r.Throttle
      notify_when := r.NotifyWhen }
    match marshalRawMessage r.Params with
    | none => (st1, some (.otherError "json: error calling MarshalJSON"))
    | some ps =>
      let st2 := { st1 with params := ps }
      match flattenActions r.Actions with
      | .error e => (st2, some e)
      | .ok fl => ({ st2 with actions := fl }, none)

/-- Embeds resourceKibanaAlertRuleDelete: identical error discipline to the
connector delete, including the unchecked kbapi.APIError type assertion. -/
def resourceKibanaAlertRuleDelete (res : Option GoError) (st : AlertRuleState) :
    DeleteOutcome AlertRuleState :=
  match res with
  | none => .normal { st with id := "" } none
  | some e =>
    match e with
    | .apiError code _ =>
      if code = 404 then .normal { st with id := "" } none
      else .normal st (some e)
    | .otherError _ => .panicked

/-! ## Connector types data source (data_source_kibana_connector_types.go) -/

/-- One entry of kbapi.KibanaConnectorTypes. -/
structure KibanaConnectorType where
  ID : String
  Name : String
  Enabled : Bool
  EnabledInConfig : Bool
  EnabledInLicense : Bool
  MinimumLicenseRequired : String
  SupportedFeatureIDs : List String
deriving DecidableEq

/-- One output record of the connector_types attribute (the seven schema
fields written by flattenConnectorTypes). -/
structure ConnectorTypeRecord where
  id : String
  name : String
  enabled : Bool
  enabled_in_config : Bool
  enabled_in_license : Bool
  minimum_license_required : String
  supported_feature_ids : List String
deriving DecidableEq

/-- Embeds flattenConnectorTypes: the Go function takes a possibly-nil
pointer to the list; a non-nil list maps 1:1 onto output records, a nil
pointer yields the empty list. -/
def flattenConnectorTypes (connectorTypes : Option (List KibanaConnectorType)) :
    List ConnectorTypeRecord :=
  match connectorTypes with
  | some l =>
    l.map fun ct =>
      ⟨ct.ID, ct.Name, ct.Enabled, ct.EnabledInConfig, ct.EnabledInLicense,
        ct.MinimumLicenseRequired, ct.SupportedFeatureIDs⟩
  | none => []

/-- The state of the kibana_connector_types data source. -/
structure ConnectorTypesState where
  id : String
  connector_types : List ConnectorTypeRecord
deriving DecidableEq

/-- Embeds dataSourceKibanaConnectorTypesRead: list the connector types
(client answer passed in), surface a client error, otherwise store the
flattened list (the pointer passed to flattenConnectorTypes is the address
of the reply, hence never nil) and set the synthetic id "0". -/
def dataSourceKibanaConnectorTypesRead (listRes : Except GoError (List KibanaConnectorType))
    (st : ConnectorTypesState) : ConnectorTypesState × Option GoError :=
  match listRes with
  | .error e => (st, some e)
  | .ok types =>
    ({ st with connector_types := flattenConnectorTypes (some types), id := "0" }, none)

/-! ## Fuel bounds for the parser -/

mutual

/-- Fuel needed by parseValue on the serialization of `t`. -/
def jsizeV : Jtext → Nat
  | .arr es => 1 + jsizeL es
  | .obj fs => 1 + jsizeF fs
  | _ => 1

/-- Fuel needed by parseElems on the serialization of array elements. -/
def jsizeL : Jarr → Nat
  | .nil => 0
  | .cons v vs => 1 + jsizeV v + jsizeL vs

/-- Fuel needed by parseFields on the serialization of object fields. -/
def jsizeF : Jobj → Nat
  | .nil => 0
  | .cons _ v fs => 1 + jsizeV v + jsizeF fs

end

/-- The characters that may legitimately follow a serialized value: end of
input, a separating comma, or a closing bracket or brace. Number parsing
stops exactly at such a boundary. -/
def isDelim : List Char → Prop
  | [] => True
  | c :: _ => c = ',' ∨ c = rbrk ∨ c = rcurl

/-! # Theorems -/

mutual

/-- jeqV decides equality of JSON value trees. -/
theorem jeqV_iff (a b : Jtext) : jeqV a b = true ↔ a = b := by
  cases a with
  | null => cases b <;> simp [jeqV]
  | boolV x => cases b <;> simp [jeqV]
  | num m e => cases b <;> simp [jeqV]
  | str s => cases b <;> simp [jeqV]
  | arr x =>
    cases b with
    | arr y => simpa [jeqV] using jeqL_iff x y
    | null => simp [jeqV]
    | boolV _ => simp [jeqV]
    | num _ _ => simp [jeqV]
    | str _ => simp [jeqV]
    | obj _ => simp [jeqV]
  | obj f =>
    cases b with
    | obj g => simpa [jeqV] using jeqF_iff f g
    | null => simp [jeqV]
    | boolV _ => simp [jeqV]
    | num _ _ => simp [jeqV]
    | str _ => simp [jeqV]
    | arr _ => simp [jeqV]
termination_by sizeOf a
decreasing_by all_goals (simp <;> omega)

/-- jeqL decides equality of element lists. -/
theorem jeqL_iff (x y : Jarr) : jeqL x y = true ↔ x = y := by
  cases x with
  | nil => cases y <;> simp [jeqL]
  | cons v vs =>
    cases y with
    | nil => simp [jeqL]
    | cons w ws =>
      simp only [jeqL, Bool.and_eq_true, Jarr.cons.injEq]
      exact and_congr (jeqV_iff v w) (jeqL_iff vs ws)
termination_by sizeOf x
decreasing_by all_goals (simp <;> omega)

/-- jeqF decides equality of field lists. -/
theorem jeqF_iff (x y : Jobj) : jeqF x y = true ↔ x = y := by
  cases x with
  | nil => cases y <;> simp [jeqF]
  | cons k v vs =>
    cases y with
    | nil => simp [jeqF]
    | cons k2 w ws =>
      simp only [jeqF, Bool.and_eq_true, Jobj.cons.injEq, beq_iff_eq, and_assoc]
      exact and_congr Iff.rfl (and_congr (jeqV_iff v w) (jeqF_iff vs ws))
termination_by sizeOf x
decreasing_by all_goals (simp <;> omega)

end

/-! ## Round trip of the serializer through the parser -/

/-- Char.ofNat is faithful below the surrogate range. -/
theorem toNat_ofNat_small (n : Nat) (h : n < 55296) : (Char.ofNat n).toNat = n := by
  unfold Char.ofNat
  split
  · rfl
  · rename_i hv
    exact absurd (Or.inl h) hv

/-- Distinct code points give distinct characters. -/
theorem char_ne_of_toNat_ne {c d : Char} (h : c.toNat ≠ d.toNat) : c ≠ d :=
  fun hc => h (by rw [hc])

/-- A decimal digit character is a digit. -/
theorem isDig_digitChar (k : Nat) (h : k < 10) : isDig (Char.ofNat (48 + k)) = true := by
  have ht : (Char.ofNat (48 + k)).toNat = 48 + k := toNat_ofNat_small _ (by omega)
  simp only [isDig, ht, Bool.and_eq_true, decide_eq_true_eq]
  omega

/-- The value of a decimal digit character. -/
theorem digVal_digitChar (k : Nat) (h : k < 10) : digVal (Char.ofNat (48 + k)) = k := by
  simp only [digVal, toNat_ofNat_small _ (by omega : 48 + k < 55296)]
  omega

/-- skipWs is the identity on input that does not start with whitespace. -/
theorem skipWs_no_ws {c : Char} (cs : List Char) (h : isJsonWs c = false) :
    skipWs (c :: cs) = c :: cs := by
  simp [skipWs, h]

/-- A run of digit characters followed by a non-digit boundary parses to its
left-to-right decimal fold, consuming exactly the run. -/
theorem parseDigitsAux_append (ds : List Char) (a : Nat) (rest : List Char)
    (hds : ∀ c ∈ ds, isDig c = true)
    (hrest : ∀ r rs, rest = r :: rs → isDig r = false) :
    parseDigitsAux a (ds ++ rest) = (ds.foldl (fun x c => x * 10 + digVal c) a, rest) := by
  induction ds generalizing a with
  | nil =>
    cases rest with
    | nil => rfl
    | cons r rs => simp [parseDigitsAux, hrest r rs rfl]
  | cons c ds ih =>
    have hc : isDig c = true := hds c (List.mem_cons_self c ds)
    simp only [List.cons_append, parseDigitsAux, hc, if_true, List.foldl_cons]
    exact ih _ (fun x hx => hds x (List.mem_cons_of_mem c hx))

/-- natCharsGo ignores the fuel as long as it exceeds the argument. -/
theorem natCharsGo_congr (f1 : Nat) : ∀ (f2 n : Nat) (acc : List Char), n < f1 → n < f2 →
    natCharsGo f1 n acc = natCharsGo f2 n acc := by
  induction f1 with
  | zero => intro f2 n acc h1 _; omega
  | succ f ih =>
    intro f2 n acc h1 h2
    cases f2 with
    | zero => omega
    | succ g =>
      simp only [natCharsGo]
      split
      · rfl
      · rename_i hn
        have hdiv : n / 10 < n := Nat.div_lt_self (by omega) (by omega)
        exact ih g (n / 10) _ (by omega) (by omega)

/-- The accumulator of natCharsGo is a suffix. -/
theorem natCharsGo_acc (f : Nat) : ∀ (n : Nat) (acc : List Char), n < f →
    natCharsGo f n acc = natCharsGo f n [] ++ acc := by
  induction f with
  | zero => intro n acc h; omega
  | succ f ih =>
    intro n acc h
    simp only [natCharsGo]
    split
    · simp
    · rename_i hn
      have hdiv : n / 10 < n := Nat.div_lt_self (by omega) (by omega)
      rw [ih (n / 10) _ (by omega), ih (n / 10) [Char.ofNat (48 + n % 10)] (by omega)]
      simp

/-- The recursion equation of natChars. -/
theorem natChars_eq (n : Nat) : natChars n =
    if n < 10 then [Char.ofNat (48 + n)]
    else natChars (n / 10) ++ [Char.ofNat (48 + n % 10)] := by
  unfold natChars
  conv_lhs => rw [natCharsGo]
  split
  · rfl
  · rename_i hn
    have hdiv : n / 10 < n := Nat.div_lt_self (by omega) (by omega)
    rw [natCharsGo_acc n (n / 10) _ (by omega),
      natCharsGo_congr n (n / 10 + 1) (n / 10) [] (by omega) (by omega)]

/-- Every character natChars emits is a digit. -/
theorem natChars_all_digits (n : Nat) : ∀ c ∈ natChars n, isDig c = true := by
  induction n using Nat.strong_induction_on with
  | _ n ih =>
    rw [natChars_eq]
    split
    · rename_i h
      intro c hc
      rw [List.mem_singleton] at hc
      subst hc
      exact isDig_digitChar n h
    · rename_i h
      intro c hc
      have hdiv : n / 10 < n := Nat.div_lt_self (by omega) (by omega)
      rcases List.mem_append.mp hc with h1 | h2
      · exact ih (n / 10) hdiv c h1
      · rw [List.mem_singleton] at h2
        subst h2
        exact isDig_digitChar (n % 10) (by omega)

/-- Folding the decimal step over natChars recovers the number. -/
theorem natChars_foldl (n : Nat) : ∀ a : Nat,
    (natChars n).foldl (fun x c => x * 10 + digVal c) a
      = a * 10 ^ (natChars n).length + n := by
  induction n using Nat.strong_induction_on with
  | _ n ih =>
    intro a
    rw [natChars_eq]
    split
    · rename_i h
      simp [digVal_digitChar n h]
    · rename_i h
      have hdiv : n / 10 < n := Nat.div_lt_self (by omega) (by omega)
      rw [List.foldl_append, ih (n / 10) hdiv a]
      simp only [List.foldl_cons, List.foldl_nil, List.length_append, List.length_singleton]
      rw [digVal_digitChar (n % 10) (by omega)]
      calc (a * 10 ^ (natChars (n / 10)).length + n / 10) * 10 + n % 10
          = a * (10 ^ (natChars (n / 10)).length * 10) + (n / 10 * 10 + n % 10) := by ring
        _ = a * 10 ^ ((natChars (n / 10)).length + 1) + n := by
            rw [← pow_succ, Nat.div_add_mod' n 10]

/-- natChars is a nonempty digit string without a leading zero. -/
theorem natChars_head (n : Nat) : ∃ d ds, natChars n = d :: ds ∧ isDig d = true ∧
    (1 ≤ n → d ≠ Char.ofNat 48) := by
  induction n using Nat.strong_induction_on with
  | _ n ih =>
    rw [natChars_eq]
    split
    · rename_i h
      refine ⟨Char.ofNat (48 + n), [], rfl, isDig_digitChar n h, fun h1 => ?_⟩
      apply char_ne_of_toNat_ne
      rw [toNat_ofNat_small _ (by omega), toNat_ofNat_small _ (by omega)]
      omega
    · rename_i h
      have hdiv : n / 10 < n := Nat.div_lt_self (by omega) (by omega)
      obtain ⟨d, ds, hd, hdig, hne⟩ := ih (n / 10) hdiv
      exact ⟨d, ds ++ [Char.ofNat (48 + n % 10)], by rw [hd]; rfl, hdig,
        fun _ => hne (by omega)⟩

/-- Combined form: natChars starts with a digit (nonzero unless n = 0) and
the digit run parses back to n at any non-digit boundary. -/
theorem natChars_parse (n : Nat) (rest : List Char)
    (hrest : ∀ r rs, rest = r :: rs → isDig r = false) :
    ∃ d ds, natChars n = d :: ds ∧ isDig d = true ∧ (1 ≤ n → d ≠ Char.ofNat 48) ∧
      parseDigitsAux (digVal d) (ds ++ rest) = (n, rest) := by
  obtain ⟨d, ds, hd, hdig, hne⟩ := natChars_head n
  refine ⟨d, ds, hd, hdig, hne, ?_⟩
  have hds : ∀ c ∈ ds, isDig c = true := fun c hc =>
    natChars_all_digits n c (by rw [hd]; exact List.mem_cons_of_mem d hc)
  rw [parseDigitsAux_append ds (digVal d) rest hds hrest]
  have hfold := natChars_foldl n 0
  rw [hd] at hfold
  simp only [List.foldl_cons, Nat.zero_mul, Nat.zero_add] at hfold
  rw [hfold]

/-- The serialized exponent suffix parses back: no fraction, mandatory
exponent marker, signed digits, stopping at the non-digit boundary. -/
theorem parseNumTail_exp (neg : Bool) (iv : Nat) (e : Int) (rest : List Char)
    (hrest : ∀ r rs, rest = r :: rs → isDig r = false) :
    parseNumTail neg iv ('e' :: (intChars e ++ rest))
      = some ((if neg then -(iv : Int) else (iv : Int), e), rest) := by
  by_cases he : e < 0
  · have hi : intChars e = '-' :: natChars e.natAbs := by simp [intChars, he]
    obtain ⟨d, ds, hd, hdig, _, hparse⟩ := natChars_parse e.natAbs rest hrest
    rw [hi, hd]
    simp +decide [parseNumTail, hdig, hparse]
    rw [abs_of_neg he, neg_neg]
  · have hi : intChars e = natChars e.natAbs := by simp [intChars, he]
    obtain ⟨d, ds, hd, hdig, _, hparse⟩ := natChars_parse e.natAbs rest hrest
    have h45 : ('-').toNat = 45 := rfl
    have h43 : ('+').toNat = 43 := rfl
    have hdm : d ≠ '-' := char_ne_of_toNat_ne (by
      simp only [isDig, Bool.and_eq_true, decide_eq_true_eq] at hdig
      omega)
    have hdp : d ≠ '+' := char_ne_of_toNat_ne (by
      simp only [isDig, Bool.and_eq_true, decide_eq_true_eq] at hdig
      omega)
    rw [hi, hd]
    simp +decide [parseNumTail, hdig, hparse, hdm, hdp]
    omega

/-- A serialized number parses back to its mantissa/exponent pair at any
non-digit boundary. -/
theorem parseNumber_numChars (m e : Int) (rest : List Char)
    (hrest : ∀ r rs, rest = r :: rs → isDig r = false) :
    parseNumber (numChars m e ++ rest) = some ((m, e), rest) := by
  have hR : ∀ r rs, ('e' :: (intChars e ++ rest)) = r :: rs → isDig r = false := by
    intro r rs h
    cases h
    decide
  by_cases hm : m < 0
  · have hi : intChars m = '-' :: natChars m.natAbs := by simp [intChars, hm]
    obtain ⟨d, ds, hd, hdig, hne, hparse⟩ := natChars_parse m.natAbs ('e' :: (intChars e ++ rest)) hR
    have hd0 : d ≠ '0' := hne (by omega)
    have h48 : ('0' : Char) = Char.ofNat 48 := rfl
    rw [numChars, hi, hd]
    simp only [List.cons_append, List.append_assoc, List.nil_append]
    simp +decide [parseNumber, hdig, hd0, hparse, parseNumTail_exp true m.natAbs e rest hrest]
    rw [abs_of_neg hm, neg_neg]
  · by_cases hm0 : m = 0
    · subst hm0
      have hi : intChars 0 = [Char.ofNat 48] := by
        simp [intChars, natChars_eq]
      rw [numChars, hi]
      simp only [List.cons_append, List.append_assoc, List.nil_append]
      simp +decide [parseNumber, parseNumTail_exp false 0 e rest hrest]
    · have hi : intChars m = natChars m.natAbs := by simp [intChars, hm]
      obtain ⟨d, ds, hd, hdig, hne, hparse⟩ := natChars_parse m.natAbs ('e' :: (intChars e ++ rest)) hR
      have hd0 : d ≠ '0' := hne (by omega)
      have h45 : ('-').toNat = 45 := rfl
      have hdm : d ≠ '-' := char_ne_of_toNat_ne (by
        simp only [isDig, Bool.and_eq_true, decide_eq_true_eq] at hdig
        omega)
      rw [numChars, hi, hd]
      simp only [List.cons_append, List.append_assoc, List.nil_append]
      simp +decide [parseNumber, hdig, hd0, hdm, hparse, parseNumTail_exp false m.natAbs e rest hrest]
      omega

/-- Hex digits serialize to hex characters. -/
theorem isHex_hexDigit (k : Nat) (h : k < 16) : isHex (hexDigit k) = true := by
  unfold hexDigit
  split
  · have ht := toNat_ofNat_small (48 + k) (by omega)
    simp only [isHex, ht, Bool.or_eq_true, Bool.and_eq_true, decide_eq_true_eq]
    omega
  · have ht := toNat_ofNat_small (87 + k) (by omega)
    simp only [isHex, ht, Bool.or_eq_true, Bool.and_eq_true, decide_eq_true_eq]
    omega

theorem hexVal_hexDigit (k : Nat) (h : k < 16) : hexVal (hexDigit k) = k := by
  unfold hexDigit
  split
  · have ht := toNat_ofNat_small (48 + k) (by omega)
    simp only [hexVal, ht]
    have : (48 ≤ 48 + k && 48 + k ≤ 57) = true := by
      simp only [Bool.and_eq_true, decide_eq_true_eq]; omega
    rw [if_pos this]
    omega
  · rename_i h10
    have ht := toNat_ofNat_small (87 + k) (by omega)
    simp only [hexVal, ht]
    have h1 : (decide (48 ≤ 87 + k) && decide (87 + k ≤ 57)) = false := by
      simp only [Bool.and_eq_false_iff, decide_eq_false_iff_not]
      omega
    have h2 : (decide (97 ≤ 87 + k) && decide (87 + k ≤ 102)) = true := by
      simp only [Bool.and_eq_true, decide_eq_true_eq]
      omega
    rw [h1, h2]
    simp only [Bool.false_eq_true, if_false, if_true]
    omega

theorem parseStrAux_close (f : Nat) (acc rest : List Char) :
    parseStrAux (f + 1) acc (qu :: rest) = some (String.mk acc.reverse, rest) := rfl

theorem parseStrAux_esc_qu (f : Nat) (acc rest : List Char) :
    parseStrAux (f + 1) acc (bsl :: qu :: rest) = parseStrAux f (qu :: acc) rest := rfl

theorem parseStrAux_esc_bsl (f : Nat) (acc rest : List Char) :
    parseStrAux (f + 1) acc (bsl :: bsl :: rest) = parseStrAux f (bsl :: acc) rest := rfl

theorem parseStrAux_plain (f : Nat) (c : Char) (acc rest : List Char) (hq : ¬(c = qu))
    (hb : ¬(c = bsl)) (hc : ¬(c.toNat < 32)) :
    parseStrAux (f + 1) acc (c :: rest) = parseStrAux f (c :: acc) rest := by
  simp only [parseStrAux, if_neg hq, if_neg hb, if_neg hc]

theorem parseStrAux_u00 (f : Nat) (h1 h2 : Char) (acc rest : List Char)
    (hh1 : isHex h1 = true) (hh2 : isHex h2 = true)
    (hlt : hexVal h1 * 16 + hexVal h2 < 32) :
    parseStrAux (f + 1) acc (bsl :: 'u' :: '0' :: '0' :: h1 :: h2 :: rest)
      = parseStrAux f (Char.ofNat (hexVal h1 * 16 + hexVal h2) :: acc) rest := by
  have hcond : (isHex '0' && isHex '0' && isHex h1 && isHex h2) = true := by
    rw [hh1, hh2]
    decide
  simp only [parseStrAux, if_neg (show ¬(bsl = qu) by decide), if_pos rfl,
    if_neg (show ¬('u' = qu) by decide), if_neg (show ¬('u' = bsl) by decide),
    if_neg (show ¬('u' = Char.ofNat 47) by decide), if_neg (show ¬('u' = 'b') by decide),
    if_neg (show ¬('u' = 'f') by decide), if_neg (show ¬('u' = 'n') by decide),
    if_neg (show ¬('u' = 'r') by decide), if_neg (show ¬('u' = 't') by decide),
    hcond, if_true]
  have hv0 : hexVal '0' = 0 := rfl
  simp only [hv0, Nat.zero_mul, Nat.zero_add]
  rw [if_neg (show ¬(55296 ≤ hexVal h1 * 16 + hexVal h2 ∧
        hexVal h1 * 16 + hexVal h2 ≤ 56319) by omega)]
  rw [if_neg (show ¬(56320 ≤ hexVal h1 * 16 + hexVal h2 ∧
        hexVal h1 * 16 + hexVal h2 ≤ 57343) by omega)]


theorem parseStrAux_enc (l : List Char) : ∀ (f : Nat) (acc rest : List Char), l.length < f →
    parseStrAux f acc (l.flatMap encChar ++ (qu :: rest))
      = some (String.mk (acc.reverse ++ l), rest) := by
  induction l with
  | nil =>
    intro f acc rest hf
    obtain ⟨g, rfl⟩ : ∃ g, f = g + 1 := ⟨f - 1, by omega⟩
    simp only [List.flatMap_nil, List.nil_append, parseStrAux_close, List.append_nil]
  | cons c l ih =>
    intro f acc rest hf
    obtain ⟨g, rfl⟩ : ∃ g, f = g + 1 := ⟨f - 1, by omega⟩
    have hg : l.length < g := by
      simp only [List.length_cons] at hf
      omega
    by_cases hq : c = qu
    · subst hq
      rw [show (qu :: l).flatMap encChar ++ (qu :: rest)
          = bsl :: qu :: (l.flatMap encChar ++ (qu :: rest)) from by
        rw [List.flatMap_cons]
        rfl]
      rw [parseStrAux_esc_qu, ih g (qu :: acc) rest hg]
      simp
    · by_cases hb : c = bsl
      · subst hb
        rw [show (bsl :: l).flatMap encChar ++ (qu :: rest)
            = bsl :: bsl :: (l.flatMap encChar ++ (qu :: rest)) from by
          rw [List.flatMap_cons]
          rfl]
        rw [parseStrAux_esc_bsl, ih g (bsl :: acc) rest hg]
        simp
      · by_cases hc : c.toNat < 32
        · have he : encChar c =
              [bsl, 'u', '0', '0', hexDigit (c.toNat / 16), hexDigit (c.toNat % 16)] := by
            simp only [encChar, if_neg hq, if_neg hb, if_pos hc]
          rw [show (c :: l).flatMap encChar ++ (qu :: rest)
              = bsl :: 'u' :: '0' :: '0' :: hexDigit (c.toNat / 16) :: hexDigit (c.toNat % 16)
                  :: (l.flatMap encChar ++ (qu :: rest)) from by
            rw [List.flatMap_cons, he]
            rfl]
          have hh1 : isHex (hexDigit (c.toNat / 16)) = true := isHex_hexDigit _ (by omega)
          have hh2 : isHex (hexDigit (c.toNat % 16)) = true := isHex_hexDigit _ (by omega)
          have hv1 : hexVal (hexDigit (c.toNat / 16)) = c.toNat / 16 := hexVal_hexDigit _ (by omega)
          have hv2 : hexVal (hexDigit (c.toNat % 16)) = c.toNat % 16 := hexVal_hexDigit _ (by omega)
          rw [parseStrAux_u00 g _ _ acc _ hh1 hh2 (by rw [hv1, hv2]; omega)]
          rw [show Char.ofNat (hexVal (hexDigit (c.toNat / 16)) * 16
                + hexVal (hexDigit (c.toNat % 16))) = c from by
            rw [hv1, hv2, show c.toNat / 16 * 16 + c.toNat % 16 = c.toNat from by omega,
              Char.ofNat_toNat]]
          rw [ih g (c :: acc) rest hg]
          simp
        · have he : encChar c = [c] := by
            simp only [encChar, if_neg hq, if_neg hb, if_neg hc]
          rw [show (c :: l).flatMap encChar ++ (qu :: rest)
              = c :: (l.flatMap encChar ++ (qu :: rest)) from by
            rw [List.flatMap_cons, he]
            rfl]
          rw [parseStrAux_plain g c acc _ hq hb hc, ih g (c :: acc) rest hg]
          simp

/-! Dispatch equations of the parser, one per leading character. -/

theorem parseValue_qu (g : Nat) (X : List Char) :
    parseValue (g + 1) (qu :: X)
      = match parseStrAux X.length [] X with
        | some (s, r2) => some (Jtext.str s, r2)
        | none => none := rfl

theorem parseValue_lbrk (g : Nat) (X : List Char) :
    parseValue (g + 1) (lbrk :: X)
      = match skipWs X with
        | c2 :: rest2 =>
          if c2 = rbrk then some (Jtext.arr Jarr.nil, rest2)
          else
            match parseElems g (c2 :: rest2) with
            | some (es, rest3) => some (Jtext.arr es, rest3)
            | none => none
        | [] => none := rfl

theorem parseValue_lcurl (g : Nat) (X : List Char) :
    parseValue (g + 1) (lcurl :: X)
      = match skipWs X with
        | c2 :: rest2 =>
          if c2 = rcurl then some (Jtext.obj Jobj.nil, rest2)
          else
            match parseFields g (c2 :: rest2) with
            | some (fs, rest3) => some (Jtext.obj fs, rest3)
            | none => none
        | [] => none := rfl

theorem parseValue_null (g : Nat) (rest : List Char) :
    parseValue (g + 1) ('n' :: 'u' :: 'l' :: 'l' :: rest) = some (Jtext.null, rest) := rfl

theorem parseValue_true (g : Nat) (rest : List Char) :
    parseValue (g + 1) ('t' :: 'r' :: 'u' :: 'e' :: rest) = some (Jtext.boolV true, rest) := rfl

theorem parseValue_false (g : Nat) (rest : List Char) :
    parseValue (g + 1) ('f' :: 'a' :: 'l' :: 's' :: 'e' :: rest)
      = some (Jtext.boolV false, rest) := rfl

theorem parseValue_minus (g : Nat) (X : List Char) :
    parseValue (g + 1) ('-' :: X)
      = match parseNumber ('-' :: X) with
        | some (me, rest2) => some (Jtext.num me.1 me.2, rest2)
        | none => none := rfl

theorem parseElems_succ (g : Nat) (cs : List Char) :
    parseElems (g + 1) cs
      = match parseValue g cs with
        | none => none
        | some (v, rest) =>
          match skipWs rest with
          | c :: rest2 =>
            if c = ',' then
              match parseElems g rest2 with
              | some (vs, rest3) => some (Jarr.cons v vs, rest3)
              | none => none
            else if c = rbrk then some (Jarr.cons v Jarr.nil, rest2)
            else none
          | [] => none := rfl

theorem parseFields_succ (g : Nat) (cs : List Char) :
    parseFields (g + 1) cs
      = match skipWs cs with
        | c :: rest =>
          if c = qu then
            match parseStrAux rest.length [] rest with
            | some (k, rest2) =>
              match skipWs rest2 with
              | c2 :: rest3 =>
                if c2 = ':' then
                  match parseValue g rest3 with
                  | some (v, rest4) =>
                    match skipWs rest4 with
                    | c3 :: rest5 =>
                      if c3 = ',' then
                        match parseFields g rest5 with
                        | some (fs, rest6) => some (Jobj.cons k v fs, rest6)
                        | none => none
                      else if c3 = rcurl then some (Jobj.cons k v Jobj.nil, rest5)
                      else none
                    | [] => none
                  | none => none
                else none
              | [] => none
            | none => none
          else none
        | [] => none := rfl

theorem parseValue_digit (g : Nat) (d : Char) (X : List Char) (hd : isDig d = true) :
    parseValue (g + 1) (d :: X)
      = match parseNumber (d :: X) with
        | some (me, rest2) => some (Jtext.num me.1 me.2, rest2)
        | none => none := by
  have hb : 48 ≤ d.toNat ∧ d.toNat ≤ 57 := by
    simpa [isDig, Bool.and_eq_true, decide_eq_true_eq] using hd
  have hws : isJsonWs d = false := by
    simp only [isJsonWs, Bool.or_eq_false_iff, decide_eq_false_iff_not]
    refine ⟨⟨⟨?_, ?_⟩, ?_⟩, ?_⟩ <;>
      exact char_ne_of_toNat_ne (by rw [toNat_ofNat_small _ (by omega)]; omega)
  have h1 : ¬(d = lbrk) := char_ne_of_toNat_ne (by rw [show lbrk.toNat = 91 from rfl]; omega)
  have h2 : ¬(d = lcurl) := char_ne_of_toNat_ne (by rw [show lcurl.toNat = 123 from rfl]; omega)
  have h3 : ¬(d = qu) := char_ne_of_toNat_ne (by rw [show qu.toNat = 34 from rfl]; omega)
  have h4 : ¬(d = 't') := char_ne_of_toNat_ne (by rw [show ('t').toNat = 116 from rfl]; omega)
  have h5 : ¬(d = 'f') := char_ne_of_toNat_ne (by rw [show ('f').toNat = 102 from rfl]; omega)
  have h6 : ¬(d = 'n') := char_ne_of_toNat_ne (by rw [show ('n').toNat = 110 from rfl]; omega)
  simp only [parseValue, skipWs_no_ws _ hws, if_neg h1, if_neg h2, if_neg h3, if_neg h4,
    if_neg h5, if_neg h6]

/-- Every serialization starts with a non-whitespace character that is not
a closing bracket. -/
theorem serializeV_head (t : Jtext) :
    ∃ c cs, serializeV t = c :: cs ∧ isJsonWs c = false ∧ c ≠ rbrk := by
  cases t with
  | null => exact ⟨'n', _, rfl, by decide, by decide⟩
  | boolV b =>
    cases b with
    | true => exact ⟨'t', _, rfl, by decide, by decide⟩
    | false => exact ⟨'f', _, rfl, by decide, by decide⟩
  | str s => exact ⟨qu, _, rfl, by decide, by decide⟩
  | arr es =>
    cases es with
    | nil => exact ⟨lbrk, _, rfl, by decide, by decide⟩
    | cons v vs => exact ⟨lbrk, _, rfl, by decide, by decide⟩
  | obj fs =>
    cases fs with
    | nil => exact ⟨lcurl, _, rfl, by decide, by decide⟩
    | cons k v fs2 => exact ⟨lcurl, _, rfl, by decide, by decide⟩
  | num m e =>
    by_cases hm : m < 0
    · refine ⟨'-', natChars m.natAbs ++ 'e' :: intChars e, ?_, by decide, by decide⟩
      simp [serializeV, numChars, intChars, hm]
    · obtain ⟨d, ds, hd, hdig, _⟩ := natChars_head m.natAbs
      have hb : 48 ≤ d.toNat ∧ d.toNat ≤ 57 := by
        simpa [isDig, Bool.and_eq_true, decide_eq_true_eq] using hdig
      refine ⟨d, ds ++ 'e' :: intChars e, ?_, ?_, ?_⟩
      · simp [serializeV, numChars, intChars, hm, hd]
      · simp only [isJsonWs, Bool.or_eq_false_iff, decide_eq_false_iff_not]
        refine ⟨⟨⟨?_, ?_⟩, ?_⟩, ?_⟩ <;>
          exact char_ne_of_toNat_ne (by rw [toNat_ofNat_small _ (by omega)]; omega)
      · exact char_ne_of_toNat_ne (by rw [show rbrk.toNat = 93 from rfl]; omega)

mutual

theorem jsizeV_le (t : Jtext) : jsizeV t ≤ (serializeV t).length := by
  cases t with
  | null => simp [jsizeV, serializeV]
  | boolV b => cases b <;> simp [jsizeV, serializeV]
  | num m e =>
    simp only [jsizeV, serializeV, numChars, List.length_append, List.length_cons]
    omega
  | str s => simp [jsizeV, serializeV, encStr]
  | arr es =>
    cases es with
    | nil => simp [jsizeV, jsizeL, serializeV]
    | cons v vs =>
      have h1 := jsizeV_le v
      have h2 := jsizeL_le vs
      simp only [jsizeV, jsizeL, serializeV, List.length_cons, List.length_append]
      omega
  | obj fs =>
    cases fs with
    | nil => simp [jsizeV, jsizeF, serializeV]
    | cons k v fs2 =>
      have h1 := jsizeV_le v
      have h2 := jsizeF_le fs2
      simp only [jsizeV, jsizeF, serializeV, List.length_cons, List.length_append]
      omega
termination_by sizeOf t
decreasing_by all_goals (simp <;> omega)

theorem jsizeL_le (vs : Jarr) : 1 + jsizeL vs ≤ (serializeElms vs).length := by
  cases vs with
  | nil => simp [jsizeL, serializeElms]
  | cons v vs2 =>
    have h1 := jsizeV_le v
    have h2 := jsizeL_le vs2
    simp only [jsizeL, serializeElms, List.length_cons, List.length_append]
    omega
termination_by sizeOf vs
decreasing_by all_goals (simp <;> omega)

theorem jsizeF_le (fs : Jobj) : 1 + jsizeF fs ≤ (serializeFlds fs).length := by
  cases fs with
  | nil => simp [jsizeF, serializeFlds]
  | cons k v fs2 =>
    have h1 := jsizeV_le v
    have h2 := jsizeF_le fs2
    simp only [jsizeF, serializeFlds, List.length_cons, List.length_append]
    omega
termination_by sizeOf fs
decreasing_by all_goals (simp <;> omega)

end

theorem encChar_length_pos (c : Char) : 1 ≤ (encChar c).length := by
  unfold encChar
  split_ifs <;> simp

theorem flatMap_encChar_length (l : List Char) : l.length ≤ (l.flatMap encChar).length := by
  induction l with
  | nil => simp
  | cons c l ih =>
    simp only [List.flatMap_cons, List.length_append, List.length_cons]
    have := encChar_length_pos c
    omega

theorem isDelim_of_serializeElms (vs : Jarr) (rest : List Char) :
    isDelim (serializeElms vs ++ rest) := by
  cases vs with
  | nil => exact Or.inr (Or.inl rfl)
  | cons w ws => exact Or.inl rfl

theorem isDelim_of_serializeFlds (fs : Jobj) (rest : List Char) :
    isDelim (serializeFlds fs ++ rest) := by
  cases fs with
  | nil => exact Or.inr (Or.inr rfl)
  | cons k w fs2 => exact Or.inl rfl

theorem isDig_false_of_isDelim (rest : List Char) (h : isDelim rest) :
    ∀ r rs, rest = r :: rs → isDig r = false := by
  intro r rs hr
  subst hr
  rcases h with h | h | h <;> subst h <;> decide

/-- The serializer/parser round trip, by strong induction on a size bound:
a serialized value parses back to itself before any delimiter, a serialized
element tail completes the enclosing array, a serialized field group
completes the enclosing object. -/
theorem rt_all : ∀ n : Nat,
    (∀ t : Jtext, sizeOf t ≤ n → ∀ (fuel : Nat) (rest : List Char),
        jsizeV t ≤ fuel → isDelim rest →
        parseValue fuel (serializeV t ++ rest) = some (t, rest)) ∧
    (∀ (v : Jtext) (vs : Jarr), sizeOf v + sizeOf vs ≤ n →
        ∀ (fuel : Nat) (rest : List Char), 1 + jsizeV v + jsizeL vs ≤ fuel →
        parseElems fuel (serializeV v ++ (serializeElms vs ++ rest))
          = some (Jarr.cons v vs, rest)) ∧
    (∀ (k : String) (v : Jtext) (fs : Jobj), sizeOf v + sizeOf fs ≤ n →
        ∀ (fuel : Nat) (rest : List Char), 1 + jsizeV v + jsizeF fs ≤ fuel →
        parseFields fuel (qu :: (k.data.flatMap encChar
            ++ (qu :: (':' :: (serializeV v ++ (serializeFlds fs ++ rest))))))
          = some (Jobj.cons k v fs, rest)) := by
  intro n
  induction n using Nat.strong_induction_on with
  | _ n ih =>
    refine ⟨?_, ?_, ?_⟩
    · intro t hsize fuel rest hfuel hdelim
      cases t with
      | null =>
        obtain ⟨g, rfl⟩ : ∃ g, fuel = g + 1 := ⟨fuel - 1, by simp [jsizeV] at hfuel; omega⟩
        exact parseValue_null g rest
      | boolV b =>
        obtain ⟨g, rfl⟩ : ∃ g, fuel = g + 1 := ⟨fuel - 1, by simp [jsizeV] at hfuel; omega⟩
        cases b with
        | true => exact parseValue_true g rest
        | false => exact parseValue_false g rest
      | str s =>
        obtain ⟨g, rfl⟩ : ∃ g, fuel = g + 1 := ⟨fuel - 1, by simp [jsizeV] at hfuel; omega⟩
        rw [show serializeV (Jtext.str s) ++ rest
            = qu :: (s.data.flatMap encChar ++ (qu :: rest)) from by
          simp [serializeV, encStr]]
        rw [parseValue_qu]
        rw [parseStrAux_enc s.data _ [] rest (by
          simp only [List.length_append, List.length_cons]
          have := flatMap_encChar_length s.data
          omega)]
        simp [show String.mk s.data = s from rfl]
      | num m e =>
        obtain ⟨g, rfl⟩ : ∃ g, fuel = g + 1 := ⟨fuel - 1, by simp [jsizeV] at hfuel; omega⟩
        have hrest := isDig_false_of_isDelim rest hdelim
        have hnum := parseNumber_numChars m e rest hrest
        by_cases hm : m < 0
        · rw [show serializeV (Jtext.num m e) ++ rest
              = '-' :: ((natChars m.natAbs ++ 'e' :: intChars e) ++ rest) from by
            simp [serializeV, numChars, intChars, hm]]
          rw [parseValue_minus]
          rw [show '-' :: ((natChars m.natAbs ++ 'e' :: intChars e) ++ rest)
              = numChars m e ++ rest from by
            simp [numChars, intChars, hm]]
          rw [hnum]
        · obtain ⟨d, ds, hd, hdig, _⟩ := natChars_head m.natAbs
          rw [show serializeV (Jtext.num m e) ++ rest
              = d :: ((ds ++ 'e' :: intChars e) ++ rest) from by
            simp [serializeV, numChars, intChars, hm, hd]]
          rw [parseValue_digit g d _ hdig]
          rw [show d :: ((ds ++ 'e' :: intChars e) ++ rest) = numChars m e ++ rest from by
            simp [numChars, intChars, hm, hd]]
          rw [hnum]
      | arr es =>
        obtain ⟨g, rfl⟩ : ∃ g, fuel = g + 1 :=
          ⟨fuel - 1, by cases es <;> (simp [jsizeV] at hfuel; omega)⟩
        cases es with
        | nil =>
          rw [show serializeV (Jtext.arr Jarr.nil) ++ rest = lbrk :: (rbrk :: rest) from by
            simp [serializeV]]
          rw [parseValue_lbrk, skipWs_no_ws rest (by decide)]
          dsimp only
          rw [if_pos rfl]
        | cons v vs =>
          rw [show serializeV (Jtext.arr (Jarr.cons v vs)) ++ rest
              = lbrk :: (serializeV v ++ (serializeElms vs ++ rest)) from by
            simp [serializeV]]
          rw [parseValue_lbrk]
          obtain ⟨c, cs2, hvhead, hws, hnb⟩ := serializeV_head v
          rw [show serializeV v ++ (serializeElms vs ++ rest)
              = c :: (cs2 ++ (serializeElms vs ++ rest)) from by rw [hvhead]; rfl]
          rw [skipWs_no_ws _ hws]
          dsimp only
          rw [if_neg hnb]
          rw [show c :: (cs2 ++ (serializeElms vs ++ rest))
              = serializeV v ++ (serializeElms vs ++ rest) from by rw [hvhead]; rfl]
          have hsz : sizeOf v + sizeOf vs ≤ n - 1 := by
            simp at hsize
            omega
          rw [(ih (n - 1) (by
              simp at hsize
              omega)).2.1 v vs hsz g rest (by simp [jsizeV, jsizeL] at hfuel; omega)]
      | obj fs =>
        obtain ⟨g, rfl⟩ : ∃ g, fuel = g + 1 :=
          ⟨fuel - 1, by cases fs <;> (simp [jsizeV] at hfuel; omega)⟩
        cases fs with
        | nil =>
          rw [show serializeV (Jtext.obj Jobj.nil) ++ rest = lcurl :: (rcurl :: rest) from by
            simp [serializeV]]
          rw [parseValue_lcurl, skipWs_no_ws rest (by decide)]
          dsimp only
          rw [if_pos rfl]
        | cons k v fs2 =>
          rw [show serializeV (Jtext.obj (Jobj.cons k v fs2)) ++ rest
              = lcurl :: (qu :: (k.data.flatMap encChar
                  ++ (qu :: (':' :: (serializeV v ++ (serializeFlds fs2 ++ rest)))))) from by
            simp [serializeV, encStr]]
          rw [parseValue_lcurl]
          rw [skipWs_no_ws _ (by decide)]
          dsimp only
          rw [if_neg (by decide : ¬(qu = rcurl))]
          have hsz : sizeOf v + sizeOf fs2 ≤ n - 1 := by
            simp at hsize
            omega
          rw [(ih (n - 1) (by
              simp at hsize
              omega)).2.2 k v fs2 hsz g rest (by simp [jsizeV, jsizeF] at hfuel; omega)]
    · intro v vs hsize fuel rest hfuel
      obtain ⟨g, rfl⟩ : ∃ g, fuel = g + 1 := ⟨fuel - 1, by omega⟩
      rw [parseElems_succ]
      have hszv : sizeOf v ≤ n - 1 := by
        have : 1 ≤ sizeOf vs := by cases vs <;> simp <;> omega
        omega
      rw [(ih (n - 1) (by
          have : 1 ≤ sizeOf vs := by cases vs <;> simp <;> omega
          have : 1 ≤ sizeOf v := by cases v <;> simp <;> omega
          omega)).1 v hszv g _ (by omega) (isDelim_of_serializeElms vs rest)]
      dsimp only
      cases vs with
      | nil =>
        rw [show serializeElms Jarr.nil ++ rest = rbrk :: rest from rfl]
        rw [skipWs_no_ws _ (by decide)]
        dsimp only
        rw [if_neg (by decide : ¬(rbrk = ',')), if_pos rfl]
      | cons w ws =>
        rw [show serializeElms (Jarr.cons w ws) ++ rest
            = ',' :: (serializeV w ++ (serializeElms ws ++ rest)) from by
          simp [serializeElms]]
        rw [skipWs_no_ws _ (by decide)]
        dsimp only
        rw [if_pos rfl]
        have hsz2 : sizeOf w + sizeOf ws ≤ n - 1 := by
          have : 1 ≤ sizeOf v := by cases v <;> simp <;> omega
          simp at hsize
          omega
        rw [(ih (n - 1) (by
            have : 1 ≤ sizeOf v := by cases v <;> simp <;> omega
            have : 1 ≤ sizeOf w := by cases w <;> simp <;> omega
            omega)).2.1 w ws hsz2 g rest (by simp [jsizeL] at hfuel; omega)]
    · intro k v fs hsize fuel rest hfuel
      obtain ⟨g, rfl⟩ : ∃ g, fuel = g + 1 := ⟨fuel - 1, by omega⟩
      rw [parseFields_succ]
      rw [skipWs_no_ws _ (by decide : isJsonWs qu = false)]
      dsimp only
      rw [if_pos rfl]
      rw [parseStrAux_enc k.data _ [] _ (by
        simp only [List.length_append, List.length_cons]
        have := flatMap_encChar_length k.data
        omega)]
      dsimp only
      rw [show String.mk ([].reverse ++ k.data) = k from by simp]
      rw [skipWs_no_ws _ (by decide : isJsonWs ':' = false)]
      dsimp only
      rw [if_pos rfl]
      have hszv : sizeOf v ≤ n - 1 := by
        have : 1 ≤ sizeOf fs := by cases fs <;> simp <;> omega
        omega
      rw [(ih (n - 1) (by
          have : 1 ≤ sizeOf fs := by cases fs <;> simp <;> omega
          have : 1 ≤ sizeOf v := by cases v <;> simp <;> omega
          omega)).1 v hszv g _ (by omega) (isDelim_of_serializeFlds fs rest)]
      dsimp only
      cases fs with
      | nil =>
        rw [show serializeFlds Jobj.nil ++ rest = rcurl :: rest from rfl]
        rw [skipWs_no_ws _ (by decide)]
        dsimp only
        rw [if_neg (by decide : ¬(rcurl = ',')), if_pos rfl]
      | cons k2 v2 fs2 =>
        rw [show serializeFlds (Jobj.cons k2 v2 fs2) ++ rest
            = ',' :: (qu :: (k2.data.flatMap encChar
                ++ (qu :: (':' :: (serializeV v2 ++ (serializeFlds fs2 ++ rest)))))) from by
          simp [serializeFlds, encStr]]
        rw [skipWs_no_ws _ (by decide)]
        dsimp only
        rw [if_pos rfl]
        have hsz2 : sizeOf v2 + sizeOf fs2 ≤ n - 1 := by
          have : 1 ≤ sizeOf v := by cases v <;> simp <;> omega
          simp at hsize
          omega
        rw [(ih (n - 1) (by
            have : 1 ≤ sizeOf v := by cases v <;> simp <;> omega
            have : 1 ≤ sizeOf v2 := by cases v2 <;> simp <;> omega
            omega)).2.2 k2 v2 fs2 hsz2 g rest (by simp [jsizeF] at hfuel; omega)]

/-- A serialized value parses completely, leaving no remainder. -/
theorem parseValue_serializeV (t : Jtext) (fuel : Nat) (h : jsizeV t ≤ fuel) :
    parseValue fuel (serializeV t) = some (t, []) := by
  have h2 := (rt_all (sizeOf t)).1 t le_rfl fuel [] h trivial
  rwa [List.append_nil] at h2

/-- Round trip at the text level: parsing the serialization of a tree gives
back exactly that tree. -/
theorem parseJson_serializeV (t : Jtext) : parseJson (String.mk (serializeV t)) = some t := by
  show (match parseValue ((serializeV t).length + 1) (serializeV t) with
    | some (v, rest) => if skipWs rest = [] then some v else none
    | none => none) = some t
  rw [parseValue_serializeV t _ (le_trans (jsizeV_le t) (Nat.le_succ _))]
  rfl

/-- The read handler leaves the secrets attribute untouched on every
possible client answer. -/
theorem connectorRead_secrets (res : GetResult KibanaConnector) (st : ConnectorState) :
    ((resourceKibanaConnectorRead res st).1).secrets = st.secrets := by
  cases res <;> rfl

/-- C3: for every resource state, a Get that reports not-found (the client
returns a nil object with a nil error on 404) makes the connector and alert
rule read handlers clear the local identifier and return no diagnostics. -/
theorem read_notFound_clears_id_no_error :
    (∀ st : ConnectorState,
        resourceKibanaConnectorRead GetResult.notFound st = ({ st with id := "" }, none)) ∧
    (∀ st : AlertRuleState,
        resourceKibanaAlertRuleRead GetResult.notFound st = ({ st with id := "" }, none)) :=
  ⟨fun _ => rfl, fun _ => rfl⟩

/-- C4: in both delete handlers, an APIError with code 404 clears the local
identifier and surfaces no error; an APIError with any other code is
returned unchanged and the state is left alone; a successful delete clears
the identifier and surfaces no error. -/
theorem delete_404_tolerant_error_discipline :
    (∀ (st : ConnectorState) (m : String),
        resourceKibanaConnectorDelete (some (GoError.apiError 404 m)) st
          = DeleteOutcome.normal { st with id := "" } none) ∧
    (∀ (st : ConnectorState) (c : Int) (m : String), c ≠ 404 →
        resourceKibanaConnectorDelete (some (GoError.apiError c m)) st
          = DeleteOutcome.normal st (some (GoError.apiError c m))) ∧
    (∀ st : ConnectorState,
        resourceKibanaConnectorDelete none st = DeleteOutcome.normal { st with id := "" } none) ∧
    (∀ (st : AlertRuleState) (m : String),
        resourceKibanaAlertRuleDelete (some (GoError.apiError 404 m)) st
          = DeleteOutcome.normal { st with id := "" } none) ∧
    (∀ (st : AlertRuleState) (c : Int) (m : String), c ≠ 404 →
        resourceKibanaAlertRuleDelete (some (GoError.apiError c m)) st
          = DeleteOutcome.normal st (some (GoError.apiError c m))) ∧
    (∀ st : AlertRuleState,
        resourceKibanaAlertRuleDelete none st = DeleteOutcome.normal { st with id := "" } none) := by
  refine ⟨fun st m => rfl, fun st c m h => ?_, fun st => rfl,
    fun st m => rfl, fun st c m h => ?_, fun st => rfl⟩ <;>
    simp [resourceKibanaConnectorDelete, resourceKibanaAlertRuleDelete, h]

/-- C9: the delete handlers type-assert the client error to kbapi.APIError
without checking: an error of any other dynamic type makes them panic
rather than surface the error, and no panic is possible when every non-nil
error is an APIError. -/
theorem delete_unchecked_type_assertion :
    (∀ (st : ConnectorState) (m : String),
        resourceKibanaConnectorDelete (some (GoError.otherError m)) st = DeleteOutcome.panicked) ∧
    (∀ (st : AlertRuleState) (m : String),
        resourceKibanaAlertRuleDelete (some (GoError.otherError m)) st = DeleteOutcome.panicked) ∧
    (∀ (st : ConnectorState) (res : Option GoError),
        (∀ m, res ≠ some (GoError.otherError m)) →
          resourceKibanaConnectorDelete res st ≠ DeleteOutcome.panicked) ∧
    (∀ (st : AlertRuleState) (res : Option GoError),
        (∀ m, res ≠ some (GoError.otherError m)) →
          resourceKibanaAlertRuleDelete res st ≠ DeleteOutcome.panicked) := by
  refine ⟨fun _ _ => rfl, fun _ _ => rfl, fun st res h => ?_, fun st res h => ?_⟩ <;>
    (match res with
     | none => simp [resourceKibanaConnectorDelete, resourceKibanaAlertRuleDelete]
     | some (GoError.apiError c m) =>
       simp only [resourceKibanaConnectorDelete, resourceKibanaAlertRuleDelete]
       split <;> simp
     | some (GoError.otherError m) => exact absurd rfl (h m))

/-- C10: the connector read handler never writes the secrets attribute (on
any client answer the stored secrets are exactly the previous ones), while a
successful read writes name, connector_type_id, is_preconfigured,
is_deprecated, is_missing_secrets, referenced_by_count and config from the
response; create and update write secrets only from the request's secrets
(read from the current attributes), so they too leave the stored value
unchanged. -/
theorem connector_read_never_writes_secrets :
    (∀ (res : GetResult KibanaConnector) (st : ConnectorState),
        ((resourceKibanaConnectorRead res st).1).secrets = st.secrets) ∧
    (∀ (c : KibanaConnector) (st : ConnectorState),
        resourceKibanaConnectorRead (GetResult.found c) st =
          ({ st with
              name := c.Name
              connector_type_id := c.ConnectorTypeID
              is_preconfigured := c.IsPreconfigured
              is_deprecated := c.IsDeprecated
              is_missing_secrets := c.IsMissingSecrets
              referenced_by_count := c.ReferencedByCount
              config := c.Config }, none)) ∧
    (∀ (cr : Except GoError KibanaConnector) (rr : GetResult KibanaConnector)
        (st : ConnectorState),
        ((resourceKibanaConnectorCreate cr rr st).1).secrets = st.secrets) ∧
    (∀ (ur : Except GoError KibanaConnector) (rr : GetResult KibanaConnector)
        (st : ConnectorState),
        ((resourceKibanaConnectorUpdate ur rr st).1).secrets = st.secrets) := by
  refine ⟨connectorRead_secrets, fun c st => rfl, fun cr rr st => ?_, fun ur rr st => ?_⟩
  · cases cr with
    | error e => rfl
    | ok c => exact connectorRead_secrets rr _
  · cases ur with
    | error e => rfl
    | ok c => exact connectorRead_secrets rr _

/-- C7: flattenConnectorTypes maps a non-nil list 1:1 onto output records —
same length, same order, the seven schema fields copied from the entry at
the same index, nothing filtered — and maps a nil pointer to the empty
list. -/
theorem flattenConnectorTypes_one_to_one :
    (∀ l : List KibanaConnectorType,
        (flattenConnectorTypes (some l)).length = l.length ∧
        ∀ (i : Nat) (ct : KibanaConnectorType), l[i]? = some ct →
          (flattenConnectorTypes (some l))[i]? =
            some ⟨ct.ID, ct.Name, ct.Enabled, ct.EnabledInConfig, ct.EnabledInLicense,
              ct.MinimumLicenseRequired, ct.SupportedFeatureIDs⟩) ∧
    flattenConnectorTypes none = [] := by
  refine ⟨fun l => ⟨?_, fun i ct h => ?_⟩, rfl⟩
  · simp [flattenConnectorTypes]
  · simp [flattenConnectorTypes, List.getElem?_map, h]

/-- C8: rawJsonEqual is pure: its result is a function of the old and new
value strings alone, unchanged under any schema key and any resource data
argument (of any type), and it returns only a Bool, touching no state. -/
theorem rawJsonEqual_pure_ignores_key_and_resource :
    ∀ (δ1 δ2 : Type) (k1 k2 oldValue newValue : String) (d1 : δ1) (d2 : δ2),
      rawJsonEqual k1 oldValue newValue d1 = rawJsonEqual k2 oldValue newValue d2 :=
  fun _ _ _ _ _ _ _ _ => rfl

/-- C6: deflateActions never fails (nil error on every input) and performs
no JSON validation: each record's id, group and params strings are copied
verbatim, byte for byte, even when params is not valid JSON — witnessed
concretely by the unparsable text "not json" passing through unchanged. -/
theorem deflateActions_no_validation_verbatim :
    (∀ l : List FlatAction,
        (deflateActions l).2 = none ∧
        (deflateActions l).1.length = l.length ∧
        ∀ (i : Nat) (f : FlatAction), l[i]? = some f →
          (deflateActions l).1[i]? = some ⟨f.id, f.group, f.params⟩) ∧
    parseJson "not json" = none ∧
    deflateActions [⟨"a1", "default", "not json"⟩] =
      ([⟨"a1", "default", "not json"⟩], none) := by
  refine ⟨fun l => ⟨rfl, by simp [deflateActions], fun i f h => ?_⟩, by rfl, rfl⟩
  simp [deflateActions, List.getElem?_map, h]

/-- C5: flattenActions returns the wrapped "Failed to marshal Action" error
— and no list — exactly when serializing some action's params fails; every
error it ever returns carries that context; and when every action's params
serializes, it returns a flattened list with a nil error. -/
theorem flattenActions_error_exactly_on_marshal_failure :
    ∀ acts : List KibanaAlertRuleAction,
      ((∃ a, a ∈ acts ∧ marshalRawMessage a.Params = none) ↔
          flattenActions acts = .error (.otherError "Failed to marshal Action")) ∧
      (∀ e, flattenActions acts = .error e → e = .otherError "Failed to marshal Action") ∧
      ((∀ a, a ∈ acts → (marshalRawMessage a.Params).isSome) →
          ∃ l, flattenActions acts = .ok l) := by
  intro acts
  induction acts with
  | nil =>
    refine ⟨by simp [flattenActions], by simp [flattenActions], fun _ => ⟨[], rfl⟩⟩
  | cons a rest ih =>
    rcases hm : marshalRawMessage a.Params with _ | ps
    · refine ⟨?_, ?_, ?_⟩
      · simp only [flattenActions, hm]
        constructor
        · intro _; trivial
        · intro _; exact ⟨a, List.mem_cons_self a rest, hm⟩
      · intro e he
        simp only [flattenActions, hm] at he
        exact (Except.error.inj he).symm
      · intro hall
        exact absurd (hall a (List.mem_cons_self a rest)) (by simp [hm])
    · rcases hr : flattenActions rest with e | l
      · have he : e = .otherError "Failed to marshal Action" := ih.2.1 e hr
        subst he
        refine ⟨?_, ?_, ?_⟩
        · simp only [flattenActions, hm, hr]
          constructor
          · intro _; trivial
          · intro _
            obtain ⟨b, hb, hbm⟩ := ih.1.mpr hr
            exact ⟨b, List.mem_cons_of_mem a hb, hbm⟩
        · intro e2 he2
          simp only [flattenActions, hm, hr] at he2
          exact (Except.error.inj he2).symm
        · intro hall
          obtain ⟨b, hb, hbm⟩ := ih.1.mpr hr
          exact absurd (hall b (List.mem_cons_of_mem a hb)) (by simp [hbm])
      · refine ⟨?_, ?_, ?_⟩
        · simp only [flattenActions, hm, hr]
          constructor
          · rintro ⟨b, hb, hbm⟩
            rcases List.mem_cons.mp hb with h1 | h2
            · subst h1; rw [hm] at hbm; cases hbm
            · exact absurd (ih.1.mp ⟨b, h2, hbm⟩) (by simp [hr])
          · intro h; cases h
        · intro e2 he2
          simp only [flattenActions, hm, hr] at he2
          exact Except.noConfusion he2
        · intro _
          exact ⟨⟨a.Id, a.Group, ps⟩ :: l, by simp only [flattenActions, hm, hr]⟩

/-- C1: rawJsonEqual is true exactly when both texts decode (via
json.Unmarshal) and the decoded values are deeply equal — concretely, true
for the same object spelled with reordered keys and different whitespace,
false for arrays whose elements are in a different order, and false when
the input is not valid JSON even though the two texts are byte-identical. -/
theorem rawJsonEqual_semantic_equality :
    (∀ (δ : Type) (k : String) (d : δ) (A B : String),
        rawJsonEqual k A B d = true ↔
          ∃ va vb, jsonUnmarshal A = some va ∧ jsonUnmarshal B = some vb ∧ va = vb) ∧
    rawJsonEqual "params" "\x7b\"a\":1,\"b\":2\x7d" " \x7b \"b\" : 2, \"a\" : 1 \x7d " () = true ∧
    rawJsonEqual "params" "[1,2]" "[2,1]" () = false ∧
    rawJsonEqual "params" "not json" "not json" () = false := by
  refine ⟨fun δ k d A B => ?_, by rfl, by rfl, by rfl⟩
  unfold rawJsonEqual
  rcases hA : jsonUnmarshal A with _ | va
  · simp [hA]
  · rcases hB : jsonUnmarshal B with _ | vb
    · simp [hA, hB]
    · simp [hA, hB, jeqV_iff]

/-- C2: for every ordered list of action records whose params text is valid
JSON, flattening its deflation succeeds, preserves length and order, copies
id and group byte for byte, and yields params texts that decode to the same
JSON value as the originals (the text itself may differ). -/
theorem flatten_deflate_roundtrip :
    ∀ records : List FlatAction,
      (∀ f ∈ records, (parseJson f.params).isSome = true) →
      ∃ out, flattenActions (deflateActions records).1 = .ok out ∧
        out.length = records.length ∧
        ∀ (i : Nat) (f r : FlatAction),
          records[i]? = some f → out[i]? = some r →
          r.id = f.id ∧ r.group = f.group ∧
          (jsonUnmarshal f.params).isSome = true ∧
          jsonUnmarshal r.params = jsonUnmarshal f.params := by
  intro records
  induction records with
  | nil =>
    intro _
    exact ⟨[], rfl, rfl, by intro i f r hf _; simp at hf⟩
  | cons a rest ih =>
    intro hall
    obtain ⟨t, ht⟩ : ∃ t, parseJson a.params = some t := by
      have hs := hall a (List.mem_cons_self a rest)
      cases hp : parseJson a.params with
      | some t => exact ⟨t, rfl⟩
      | none => rw [hp] at hs; simp at hs
    obtain ⟨out2, hout2, hlen2, hidx2⟩ := ih (fun f hf => hall f (List.mem_cons_of_mem a hf))
    have hmar : marshalRawMessage a.params = some (String.mk (serializeV t)) := by
      unfold marshalRawMessage
      rw [ht]
    refine ⟨⟨a.id, a.group, String.mk (serializeV t)⟩ :: out2, ?_, ?_, ?_⟩
    · show flattenActions (⟨a.id, a.group, a.params⟩ :: (deflateActions rest).1) = _
      simp only [flattenActions]
      rw [hmar, hout2]
    · simp [hlen2]
    · intro i f r hf hr
      cases i with
      | zero =>
        simp only [List.getElem?_cons_zero, Option.some.injEq] at hf hr
        subst hf
        subst hr
        refine ⟨rfl, rfl, ?_, ?_⟩
        · simp [jsonUnmarshal, ht]
        · simp [jsonUnmarshal, ht, parseJson_serializeV]
      | succ j =>
        simp only [List.getElem?_cons_succ] at hf hr
        exact hidx2 j f r hf hr

/-- Witness for C2: the spec's own scenario record, with params text
spelled with extra whitespace, round-trips concretely. -/
theorem flatten_deflate_roundtrip_witness :
    ∃ out,
      flattenActions (deflateActions [⟨"a1", "default", "\x7b \"x\" : 1 \x7d"⟩]).1 = .ok out ∧
      out.length = [(⟨"a1", "default", "\x7b \"x\" : 1 \x7d"⟩ : FlatAction)].length ∧
      ∀ (i : Nat) (f r : FlatAction),
        [(⟨"a1", "default", "\x7b \"x\" : 1 \x7d"⟩ : FlatAction)][i]? = some f →
        out[i]? = some r →
        r.id = f.id ∧ r.group = f.group ∧
        (jsonUnmarshal f.params).isSome = true ∧
        jsonUnmarshal r.params = jsonUnmarshal f.params :=
  flatten_deflate_roundtrip [⟨"a1", "default", "\x7b \"x\" : 1 \x7d"⟩] (by
    intro f hf
    simp only [List.mem_singleton] at hf
    subst hf
    decide)

end KbProvider
